import Mathlib

/-!
# Verification of the cheatmd variable-resolution engine

Shallow embedding of the Go sources `internal/ui/resolve.go` and the
Bubble-Tea variable select/input models (`varSelectModel`, `varInputModel`),
together with proofs checking the natural-language specification's claims
about them.

Conventions of the embedding:
* Go strings are modelled as Lean `String` / `List Char`; the Go code only
  manipulates ASCII bytes in the algorithms under study, so a `Char` stands
  for one byte of the Go string.
* Go maps are modelled extensionally as functions `String → Option α` or as
  association lists, whichever makes the lookup semantics of the source
  clearest; a Go `range` over a map is modelled by a fold over an arbitrary
  enumeration `List (String × value)` of its entries.
* Fallible collaborators (the shell executor, the terminal) are passed in as
  explicit `Except`/script parameters.
-/

set_option maxRecDepth 4000

namespace Cheatmd

/-- `parser.VarDef` (fields `Name`, `Shell`, `Args`). -/
structure VarDef where
  name : String
  shell : String
  args : String
deriving DecidableEq

/-- One entry of `parser.CheatIndex.Modules` (fields `Imports`, `Vars`). -/
structure Module where
  imports : List String
  vars : List VarDef
deriving DecidableEq

/-- `parser.Cheat`, restricted to the fields the resolution engine reads. -/
structure Cheat where
  command : String
  imports : List String
  vars : List VarDef
deriving DecidableEq

/-- `varState` from resolve.go: a variable plus its resolution status. -/
structure VarState where
  vdef : VarDef
  value : String
  resolved : Bool
  prefill : String
deriving DecidableEq

/-! ## Byte/string helpers shared by several Go functions -/

/-- `isVarChar` from resolve.go: valid byte of a variable name. -/
def isVarChar (c : Char) (first : Bool) : Bool :=
  if ('a' ≤ c && c ≤ 'z') || ('A' ≤ c && c ≤ 'Z') || c = '_' then
    true
  else
    !first && ('0' ≤ c && c ≤ '9')

/-- ASCII whitespace bytes recognised by Go's `unicode.IsSpace` (the code
under study only meets ASCII whitespace). -/
def goIsSpace (c : Char) : Bool :=
  c = ' ' || c = '\t' || c = '\n' || c = '\x0b' || c = '\x0c' || c = '\r'

/-- `strings.TrimSpace` on a byte list: drop whitespace from both ends. -/
def trimChars (l : List Char) : List Char :=
  ((l.dropWhile goIsSpace).reverse.dropWhile goIsSpace).reverse

/-- `strings.TrimSpace`. -/
def goTrim (s : String) : String :=
  (trimChars s.data).asString

/-- `strings.ToLower` (ASCII). -/
def goLower (s : String) : String :=
  (s.data.map Char.toLower).asString

/-- Split a byte list at every occurrence of the separator byte, keeping
empty pieces — the behaviour of Go's `strings.Split(s, sep)` for a
one-byte separator. -/
def splitByte (sep : Char) : List Char → List (List Char)
  | [] => [[]]
  | c :: cs =>
    if c = sep then
      [] :: splitByte sep cs
    else
      match splitByte sep cs with
      | [] => [[c]]
      | p :: ps => (c :: p) :: ps

/-- Split a byte list around runs of whitespace, dropping empty pieces —
the behaviour of Go's `strings.Fields`. -/
def splitWS : List Char → List (List Char)
  | [] => []
  | c :: cs =>
    if goIsSpace c then
      splitWS cs
    else
      match splitWS cs with
      | [] => [[c]]
      | p :: ps =>
        match cs with
        | [] => [[c]]
        | d :: _ => if goIsSpace d then [c] :: p :: ps else (c :: p) :: ps

/-- `strings.Fields`. -/
def goFields (s : String) : List String :=
  (splitWS s.data).map List.asString

/-- `b` begins with `a` (byte-wise). -/
def startsWith : List Char → List Char → Bool
  | [], _ => true
  | _ :: _, [] => false
  | a :: as', b :: bs => a = b && startsWith as' bs

/-- `strings.Contains hay needle`: some suffix of `hay` begins with
`needle`. -/
def containsSub (hay needle : List Char) : Bool :=
  hay.tails.any fun t => startsWith needle t

/-- `strings.ReplaceAll s o n`: replace the non-overlapping occurrences of
`o` in `s`, scanning left to right.  The `o ≠ []` guard reflects that every
call site of the engine uses a pattern of the form `"$" + name`. -/
def replaceAll (o n : List Char) (s : List Char) : List Char :=
  match s with
  | [] => []
  | c :: cs =>
    if h : o ≠ [] ∧ startsWith o (c :: cs) then
      n ++ replaceAll o n ((c :: cs).drop o.length)
    else
      c :: replaceAll o n cs
termination_by s.length
decreasing_by
  · have ho : 0 < o.length := List.length_pos.mpr h.1
    simp only [List.length_drop, List.length_cons]
    omega
  · simp

/-- `splitLines` from resolve.go: split on newlines, trim each line, keep
the non-empty ones. -/
def splitLines (s : String) : List String :=
  (((splitByte '\n' s.data).map trimChars).filter (· ≠ [])).map List.asString

/-! ## Pattern scanner: `findCommandVars` -/

/-- The inner `j` loop of `findCommandVars`: take the longest run of bytes
valid in a variable name, the `first` flag tracking `j == i+1`. -/
def takeVarAux : List Char → Bool → List Char
  | [], _ => []
  | c :: cs, first =>
    if isVarChar c first then c :: takeVarAux cs false else []

/-- The tail of a Go map read of `map[string]string`: missing keys read as
the zero value `""`. -/
def lookupStr : List (String × String) → String → String
  | [], _ => ""
  | (k, v) :: t, n => if k = n then v else lookupStr t n

/-- The scope test of `findCommandVars`:
`scope == nil || scope[varName] == ""`. -/
def scopeOk : Option (List (String × String)) → String → Bool
  | none, _ => true
  | some m, n => lookupStr m n = ""

/-- The scanning loop of `findCommandVars`.  `prev` is `cmd[i-1]` (`none`
at the start of the string), `rest` is `cmd[i:]`, `seen` and `vars` are the
accumulators of the Go loop.  A found name makes the loop jump to the first
byte after it (`i = j - 1` followed by `i++`). -/
def findVarsAux (scope : Option (List (String × String))) :
    Option Char → List Char → List String → List String → List String
  | _, [], _, vars => vars
  | prev, c :: cs, seen, vars =>
    if c ≠ '$' ∨ cs = [] then
      findVarsAux scope (some c) cs seen vars
    else if prev = some '\\' then
      findVarsAux scope (some c) cs seen vars
    else
      match takeVarAux cs true with
      | [] => findVarsAux scope (some c) cs seen vars
      | d :: ds =>
        let nm := (d :: ds).asString
        let ok := !(seen.contains nm) && scopeOk scope nm
        findVarsAux scope (some ((d :: ds).getLast (by simp)))
          (cs.drop (d :: ds).length)
          (if ok then nm :: seen else seen)
          (if ok then vars ++ [nm] else vars)
termination_by _ rest => rest.length
decreasing_by
  · simp
  · simp
  · simp
  · simp only [List.length_drop, List.length_cons]
    omega

/-- `findCommandVars` from resolve.go. -/
def findCommandVars (cmd : String) (scope : Option (List (String × String))) :
    List String :=
  findVarsAux scope none cmd.data [] []

/-! ### Declarative scanner, written from the spec's words (§4.1), used to
state claim C7 as a refinement. -/

/-- Spec grammar: a name starts with a letter or underscore. -/
def specIdentStart (c : Char) : Bool :=
  ('a' ≤ c && c ≤ 'z') || ('A' ≤ c && c ≤ 'Z') || c = '_'

/-- Spec grammar: continuation bytes also allow digits. -/
def specIdentCont (c : Char) : Bool :=
  specIdentStart c || ('0' ≤ c && c ≤ '9')

/-- Longest identifier immediately after a `$`, per the spec grammar (a
digit is not a valid first character). -/
def specIdentRun : List Char → List Char
  | [] => []
  | c :: cs => if specIdentStart c then c :: cs.takeWhile specIdentCont else []

/-- Modelled from the spec: the `$name` reference tokens of the template in
occurrence order (with repetitions).  A position references a variable when
it holds a `$` not immediately preceded by a backslash and followed by a
non-empty identifier. -/
def specTokens (prev : Option Char) : List Char → List String
  | [] => []
  | c :: cs =>
    if c = '$' ∧ prev ≠ some '\\' ∧ specIdentRun cs ≠ [] then
      (specIdentRun cs).asString :: specTokens (some c) cs
    else
      specTokens (some c) cs

/-- Keep the first occurrence of each name not yet seen. -/
def dedupFirst (seen : List String) : List String → List String
  | [] => []
  | n :: l =>
    if seen.contains n then dedupFirst seen l
    else n :: dedupFirst (n :: seen) l

/-- Modelled from the spec (§4.1): the distinct unescaped `$name` tokens in
first-occurrence order, excluding names bound to a non-empty value in the
known scope. -/
def specFindVars (cmd : String) (scope : Option (List (String × String))) :
    List String :=
  dedupFirst [] ((specTokens none cmd.data).filter (scopeOk scope))

example : specFindVars "deploy $env to $env-$region" none = ["env", "region"] := by
  decide

/-! ### Equivalence of the scanning loop with the declarative scanner -/

lemma isVarChar_false_eq (c : Char) : isVarChar c false = specIdentCont c := by
  simp [isVarChar, specIdentCont, specIdentStart]

lemma isVarChar_true_eq (c : Char) : isVarChar c true = specIdentStart c := by
  simp [isVarChar, specIdentStart]

lemma takeVarAux_false (cs : List Char) :
    takeVarAux cs false = cs.takeWhile specIdentCont := by
  induction cs with
  | nil => rfl
  | cons c cs ih =>
    simp [takeVarAux, List.takeWhile, isVarChar_false_eq]
    cases h : specIdentCont c <;> simp [h, ih]

lemma takeVarAux_true (cs : List Char) : takeVarAux cs true = specIdentRun cs := by
  cases cs with
  | nil => rfl
  | cons c cs =>
    simp [takeVarAux, specIdentRun, isVarChar_true_eq]
    cases h : specIdentStart c <;> simp [h, takeVarAux_false]

lemma specIdentRun_mem {cs : List Char} {c : Char} (h : c ∈ specIdentRun cs) :
    specIdentCont c = true := by
  cases cs with
  | nil => simp [specIdentRun] at h
  | cons d ds =>
    simp only [specIdentRun] at h
    split at h
    · rcases List.mem_cons.mp h with rfl | h
      · simpa [specIdentCont] using Or.inl (by assumption)
      · exact List.mem_takeWhile_imp h
    · simp at h

lemma specIdentRun_ne_dollar {cs : List Char} {c : Char} (h : c ∈ specIdentRun cs) :
    c ≠ '$' := by
  intro hc
  have h2 := specIdentRun_mem h
  rw [hc] at h2
  exact absurd h2 (by decide)

lemma takeWhile_append_drop (p : Char → Bool) (l : List Char) :
    l.takeWhile p ++ l.drop (l.takeWhile p).length = l := by
  induction l with
  | nil => rfl
  | cons x xs ih =>
    by_cases h : p x
    · simpa [List.takeWhile, h] using ih
    · simp [List.takeWhile, h]

lemma specIdentRun_append_drop (cs : List Char) :
    specIdentRun cs ++ cs.drop (specIdentRun cs).length = cs := by
  cases cs with
  | nil => rfl
  | cons c cs =>
    simp only [specIdentRun]
    split
    · simpa using takeWhile_append_drop specIdentCont cs
    · simp

lemma specTokens_skip (w t : List Char) (prev : Option Char) (hw : w ≠ [])
    (h : ∀ c ∈ w, c ≠ '$') :
    specTokens prev (w ++ t) = specTokens (some (w.getLast hw)) t := by
  induction w generalizing prev with
  | nil => exact absurd rfl hw
  | cons a w ih =>
    have ha : a ≠ '$' := h a (by simp)
    cases w with
    | nil => simp [specTokens, ha]
    | cons b w' =>
      have h1 : specTokens prev ((a :: b :: w') ++ t)
          = specTokens (some a) ((b :: w') ++ t) := by
        simp only [List.cons_append]
        simp [specTokens, ha]
      rw [h1, ih (some a) (by simp) (fun c hc => h c (List.mem_cons_of_mem _ hc))]
      rfl

lemma findVarsAux_cons_name (scope : Option (List (String × String)))
    (prev : Option Char) (cs : List Char) (seen vars : List String)
    (hcs : cs ≠ []) (hB : prev ≠ some '\\') (d : Char) (ds : List Char)
    (hr : takeVarAux cs true = d :: ds) :
    findVarsAux scope prev ('$' :: cs) seen vars
      = findVarsAux scope (some ((d :: ds).getLast (by simp)))
          (cs.drop (d :: ds).length)
          (if !(seen.contains ((d :: ds).asString))
              && scopeOk scope ((d :: ds).asString) then
            (d :: ds).asString :: seen
          else seen)
          (if !(seen.contains ((d :: ds).asString))
              && scopeOk scope ((d :: ds).asString) then
            vars ++ [(d :: ds).asString]
          else vars) := by
  rw [findVarsAux]
  simp [hB, hcs, hr]

lemma findVarsAux_eq (scope : Option (List (String × String))) :
    ∀ (rest : List Char) (prev : Option Char) (seen vars : List String),
      findVarsAux scope prev rest seen vars
        = vars ++ dedupFirst seen ((specTokens prev rest).filter (scopeOk scope)) := by
  have main : ∀ (n : Nat) (rest : List Char), rest.length ≤ n →
      ∀ (prev : Option Char) (seen vars : List String),
      findVarsAux scope prev rest seen vars
        = vars ++ dedupFirst seen ((specTokens prev rest).filter (scopeOk scope)) := by
    intro n
    induction n with
    | zero =>
      intro rest hlen prev seen vars
      rw [List.length_eq_zero.mp (Nat.le_zero.mp hlen)]
      simp [findVarsAux, specTokens, dedupFirst]
    | succ n ih =>
      intro rest hlen prev seen vars
      cases rest with
      | nil => simp [findVarsAux, specTokens, dedupFirst]
      | cons c cs =>
        have hcs : cs.length ≤ n := by simpa using hlen
        by_cases hA : c ≠ '$' ∨ cs = []
        · have hspec : specTokens prev (c :: cs) = specTokens (some c) cs := by
            rcases hA with h | rfl
            · simp [specTokens, h]
            · simp [specTokens, specIdentRun]
          rw [show findVarsAux scope prev (c :: cs) seen vars
              = findVarsAux scope (some c) cs seen vars by
            rw [findVarsAux]; simp [hA], hspec]
          exact ih cs hcs (some c) seen vars
        · push_neg at hA
          obtain ⟨hc, hcs'⟩ := hA
          subst hc
          by_cases hB : prev = some '\\'
          · have hspec : specTokens prev ('$' :: cs) = specTokens (some '$') cs := by
              simp [specTokens, hB]
            rw [show findVarsAux scope prev ('$' :: cs) seen vars
                = findVarsAux scope (some '$') cs seen vars by
              rw [findVarsAux]; simp [hB, hcs'], hspec]
            exact ih cs hcs (some '$') seen vars
          · cases hr : takeVarAux cs true with
            | nil =>
              have hrun : specIdentRun cs = [] := by rw [← takeVarAux_true, hr]
              have hspec : specTokens prev ('$' :: cs) = specTokens (some '$') cs := by
                simp [specTokens, hrun]
              rw [show findVarsAux scope prev ('$' :: cs) seen vars
                  = findVarsAux scope (some '$') cs seen vars by
                rw [findVarsAux]; simp [hB, hcs', hr], hspec]
              exact ih cs hcs (some '$') seen vars
            | cons d ds =>
              have hrun : specIdentRun cs = d :: ds := by rw [← takeVarAux_true, hr]
              have hne : (d :: ds : List Char) ≠ [] := by simp
              have hstep := findVarsAux_cons_name scope prev cs seen vars hcs' hB d ds hr
              have hsplit : specTokens (some '$') cs
                  = specTokens (some ((d :: ds).getLast hne))
                      (cs.drop (d :: ds).length) := by
                have hdecomp : (d :: ds) ++ cs.drop (d :: ds).length = cs := by
                  rw [← hrun]
                  exact specIdentRun_append_drop cs
                calc specTokens (some '$') cs
                    = specTokens (some '$')
                        ((d :: ds) ++ cs.drop (d :: ds).length) := by rw [hdecomp]
                  _ = specTokens (some ((d :: ds).getLast hne))
                        (cs.drop (d :: ds).length) :=
                      specTokens_skip _ _ _ hne
                        (fun x hx => specIdentRun_ne_dollar (by rw [hrun]; exact hx))
              have hspec : specTokens prev ('$' :: cs)
                  = (d :: ds).asString :: specTokens (some '$') cs := by
                simp [specTokens, hB, hrun]
              have hdrop : (cs.drop (d :: ds).length).length ≤ n := by
                simp only [List.length_drop]
                omega
              rw [hstep, ih _ hdrop _ _ _, hspec, List.filter_cons]
              by_cases hsc : scopeOk scope ((d :: ds).asString) = true
              · by_cases hseen : (d :: ds).asString ∈ seen
                · simp [hsc, hseen, dedupFirst, hsplit]
                · simp [hsc, hseen, dedupFirst, hsplit]
              · have hsc' : scopeOk scope ((d :: ds).asString) = false := by
                  simpa using hsc
                simp [hsc', dedupFirst, hsplit]
  intro rest prev seen vars
  exact main rest.length rest le_rfl prev seen vars

lemma findCommandVars_eq_spec (cmd : String)
    (scope : Option (List (String × String))) :
    findCommandVars cmd scope = specFindVars cmd scope := by
  rw [findCommandVars, specFindVars, findVarsAux_eq]
  rfl

/-! ## Resolution session: the loop of `resolveAllVariables` -/

/-- The spec's tagged selection/input outcome (§3). -/
inductive Outcome where
  | value (s : String)
  | goBack
  | globalExit
deriving DecidableEq

/-- Result of one run of the session loop.  `goBackToMain` is the source's
`(true, nil)` return, `completed vars` its fall-through to the scope merge,
`exited` its `os.Exit(0)`, `errored` its `(false, err)` return when an
interactive component fails, and `outOfScript` is the modelling artifact of
a user-interaction script ending early. -/
inductive SessionResult where
  | goBackToMain
  | completed (vars : List VarState)
  | exited
  | errored
  | outOfScript
deriving DecidableEq

/-- Replace the element at index `n`, if any. -/
def updateAt (f : VarState → VarState) : List VarState → Nat → List VarState
  | [], _ => []
  | v :: t, 0 => f v :: t
  | v :: t, n + 1 => v :: updateAt f t n

/-- `vars[currentIdx].resolved = false; vars[currentIdx].value = ""`. -/
def invalidateAt (vars : List VarState) (n : Nat) : List VarState :=
  updateAt (fun vs => { vs with resolved := false, value := "" }) vars n

/-- `vs.value = value; vs.resolved = true` for the state at index `n`. -/
def setValueAt (vars : List VarState) (n : Nat) (v : String) : List VarState :=
  updateAt (fun vs => { vs with value := v, resolved := true }) vars n

/-- Lines 76-82 of resolve.go: decrement the cursor and, when it is still
in range, mark that earlier step pending with its value cleared. -/
def goBackStep (vars : List VarState) (idx : Int) : List VarState × Int :=
  let idx' := idx - 1
  (if 0 ≤ idx' then invalidateAt vars idx'.toNat else vars, idx')

/-- The state at an in-range cursor. -/
def stateAt (vars : List VarState) (idx : Int) : VarState :=
  vars.getD idx.toNat ⟨⟨"", "", ""⟩, "", false, ""⟩

/-- One recorded interaction of `resolveVar` with the user:
`none` models `resolveVar` returning an error (a failed interactive
component), `some (value, goBack)` its normal `(value, goBack, nil)`
return. -/
abbrev Interaction := Option (String × Bool)

/-- The `for currentIdx < len(vars)` loop of `resolveAllVariables`
(lines 52-88 of resolve.go), driven by a script of interactions.  The
scope/progress-header computation before each `resolveVar` call only feeds
the display and the value-command substitution, which the script
abstracts. -/
def runSession (vars : List VarState) (idx : Int) (script : List Interaction) :
    SessionResult :=
  if (vars.length : Int) ≤ idx then
    .completed vars
  else if idx < 0 then
    .goBackToMain
  else if (stateAt vars idx).resolved then
    runSession vars (idx + 1) script
  else
    match script with
    | [] => .outOfScript
    | none :: _ => .errored
    | some (v, gb) :: rest =>
      if v = "__EXIT__" then .exited
      else if gb then
        runSession (goBackStep vars idx).1 (goBackStep vars idx).2 rest
      else
        runSession (setValueAt vars idx.toNat v) (idx + 1) rest
termination_by (script.length, (vars.length - idx).toNat)
decreasing_by
  · apply Prod.Lex.right
    omega
  · apply Prod.Lex.left
    simp
  · apply Prod.Lex.left
    simp

/-- Lines 90-95 of resolve.go: copy the resolved values into the cheat's
scope map (modelled as an association list with Go-map update
semantics). -/
def setKey (m : List (String × String)) (k v : String) : List (String × String) :=
  (k, v) :: m.filter (fun e => e.1 ≠ k)

/-- Merge the resolved variable states into a scope. -/
def mergeScope (scope : List (String × String)) (vars : List VarState) :
    List (String × String) :=
  vars.foldl
    (fun sc vs => if vs.resolved then setKey sc vs.vdef.name vs.value else sc)
    scope

/-- Lines 39-49 of resolve.go: the initial session states, one per
collected definition, pre-filled from the environment `env`. -/
def initStates (defs : List VarDef) (env : String → String) : List VarState :=
  defs.map fun d => ⟨d, "", false, env d.name⟩

/-! ## Interactive selector and text entry (`varSelectModel`, `varInputModel`)

The Bubble-Tea plumbing (rendering, window sizing, the text input widget)
is outside the algorithmic core; of the models we keep the fields that the
key handlers and the result extraction read.  `textValue` stands for
`m.textInput.Value()`. -/

/-- `varSelectModel`. -/
structure VarSelectModel where
  varName : String
  options : List String
  filtered : List String
  cursor : Int
  textValue : String
  selected : String
  cancelled : Bool
deriving DecidableEq

/-- `varInputModel`. -/
structure VarInputModel where
  varName : String
  textValue : String
  value : String
  cancelled : Bool
deriving DecidableEq

/-- The key presses the handlers distinguish. -/
inductive TuiKey where
  | ctrlC
  | esc
  | enter
  | up
  | down
  | tab
deriving DecidableEq

/-- Modelled from the spec (§4.5): `maxInt`, defined in a repository file
absent from the sources provided. -/
def maxInt (a b : Int) : Int :=
  if a < b then b else a

/-- Modelled from the spec (§4.5): `clamp` keeps a value inside
`[lo, hi]`; absent from the sources provided, the spec says the cursor
"clamps to [0, max(0, count-1)]". -/
def clamp (x lo hi : Int) : Int :=
  maxInt lo (if hi < x then hi else x)

/-- Modelled from the spec (§4.5): `matchesAllWords`, absent from the
sources provided — "a candidate (lowercased) is shown only if it contains
all required substrings". -/
def matchesAllWords (s : String) (words : List String) : Bool :=
  words.all fun w => containsSub s.data w.data

/-- `moveCursor` from the select model. -/
def moveCursor (m : VarSelectModel) (delta : Int) : VarSelectModel :=
  { m with cursor := clamp (m.cursor + delta) 0 (maxInt 0 (m.filtered.length - 1)) }

/-- `filterOptions` from the select model. -/
def filterOptions (m : VarSelectModel) : VarSelectModel :=
  let query := goTrim (goLower m.textValue)
  let filtered :=
    if query = "" then
      m.options
    else
      m.options.filter fun opt => matchesAllWords (goLower opt) (goFields query)
  { m with
    filtered := filtered
    cursor := clamp m.cursor 0 (maxInt 0 (filtered.length - 1)) }

/-- `handleKeyPress` of `varSelectModel`. -/
def handleKeyPressSelect (m : VarSelectModel) (k : TuiKey) : VarSelectModel :=
  match k with
  | .ctrlC => { m with cancelled := true, selected := "__EXIT__" }
  | .esc => { m with cancelled := true }
  | .enter =>
    if m.cursor < (m.filtered.length : Int) then
      { m with selected := m.filtered.getD m.cursor.toNat "" }
    else
      { m with selected := m.textValue }
  | .up => moveCursor m (-1)
  | .down => moveCursor m 1
  | .tab =>
    if m.cursor < (m.filtered.length : Int) then
      { m with textValue := m.filtered.getD m.cursor.toNat "" }
    else
      m

/-- `handleKeyPress` of `varInputModel`. -/
def handleKeyPressInput (m : VarInputModel) (k : TuiKey) : VarInputModel :=
  match k with
  | .ctrlC => { m with cancelled := true, value := "__EXIT__" }
  | .esc => { m with cancelled := true }
  | .enter => { m with value := m.textValue }
  | _ => m

/-- Lines 346-353: how `SelectWithTUI` turns the final model into its
`(value, goBack)` return. -/
def selectWithTUIResult (m : VarSelectModel) : String × Bool :=
  if m.selected = "__EXIT__" then ("__EXIT__", false)
  else if m.cancelled then ("", true)
  else (m.selected, false)

/-- Lines 371-378: how `PromptWithTUI` turns the final model into its
`(value, goBack)` return. -/
def promptWithTUIResult (m : VarInputModel) : String × Bool :=
  if m.value = "__EXIT__" then ("__EXIT__", false)
  else if m.cancelled then ("", true)
  else (m.value, false)

/-- Lines 72-87 of resolve.go: how `resolveAllVariables` reads a
`(value, goBack)` pair — `"__EXIT__"` means exit the process, `goBack`
steps backward, anything else is recorded as the resolved value.  This is
the session-side meaning of the pair, expressed in the spec's tagged
outcome type. -/
def sessionInterpret (r : String × Bool) : Outcome :=
  if r.1 = "__EXIT__" then .globalExit
  else if r.2 then .goBack
  else .value r.1

/-- The outcome the session attributes to one key press ending a select
interaction. -/
def selectOutcome (m : VarSelectModel) (k : TuiKey) : Outcome :=
  sessionInterpret (selectWithTUIResult (handleKeyPressSelect m k))

/-- The outcome the session attributes to one key press ending an input
interaction. -/
def promptOutcome (m : VarInputModel) (k : TuiKey) : Outcome :=
  sessionInterpret (promptWithTUIResult (handleKeyPressInput m k))

/-! ## Value source resolver: `resolveVar` -/

/-- Lines 210-214 of resolve.go: substitute every resolved variable into
the value-generating command, one `strings.ReplaceAll` per scope entry.
The Go `range` over the scope map visits entries in an unspecified order;
the order is the list order of `scope`. -/
def substScope (shell : String) (scope : List (String × String)) : String :=
  (scope.foldl
    (fun acc e => replaceAll ('$' :: e.1.data) e.2.data acc) shell.data).asString

/-- Which interactive component `resolveVar` hands the variable to. -/
inductive Route where
  | freeText
  | selectList (options : List String)
deriving DecidableEq

/-- Lines 203-228 of resolve.go, with the shell executor abstracted as a
function from the substituted command to `Except error output`.  Every
path returns a `Route`: in the source the two error-free fallback branches
call `PromptWithTUI` directly, so an execution failure is never surfaced to
the caller. -/
def resolveVarRoute (v : VarDef) (scope : List (String × String))
    (ex : String → Except String String) : Route :=
  if goTrim v.shell = "" then
    .freeText
  else
    match ex (substScope v.shell scope) with
    | .error _ => .freeText
    | .ok output =>
      match splitLines output with
      | [] => .freeText
      | [_] => .freeText
      | l => .selectList l

/-! ## Definition collector: `collectVariables` -/

/-- The Go map `map[string]parser.VarDef`, modelled extensionally. -/
abbrev DefMap := String → Option VarDef

/-- `varDefs[v.Name] = v` (unconditional overwrite). -/
def setDef (m : DefMap) (v : VarDef) : DefMap :=
  fun k => if k = v.name then some v else m k

/-- Lines 120-124: `if _, exists := varDefs[v.Name]; !exists { ... }` —
write a definition only when the name is not bound yet. -/
def writeIfAbsent (m : DefMap) (v : VarDef) : DefMap :=
  match m v.name with
  | some _ => m
  | none => setDef m v

/-- Write a module's definitions in order, each one only if absent. -/
def writeVars (m : DefMap) (vs : List VarDef) : DefMap :=
  vs.foldl writeIfAbsent m

/-- Lookup of `index.Modules[importName]`. -/
def lookupMod : List (String × Module) → String → Option Module
  | [], _ => none
  | (k, v) :: t, n => if k = n then some v else lookupMod t n

lemma lookupMod_some_mem {index : List (String × Module)} {n : String}
    {m : Module} (h : lookupMod index n = some m) : n ∈ index.map Prod.fst := by
  induction index with
  | nil => simp [lookupMod] at h
  | cons e t ih =>
    rw [lookupMod] at h
    by_cases he : e.1 = n
    · simp [he]
    · rw [if_neg he] at h
      simpa using Or.inr (ih h)

/-- Length of `l.filter p` drops strictly when `q` is stronger than `p`
and some element satisfying `p` fails `q`. -/
lemma filter_length_lt {l : List String} {p q : String → Bool}
    (hpq : ∀ x, q x = true → p x = true) {a : String} (ha : a ∈ l)
    (hpa : p a = true) (hqa : q a = false) :
    (l.filter q).length < (l.filter p).length := by
  induction l with
  | nil => simp at ha
  | cons x t ih =>
    rcases List.mem_cons.mp ha with rfl | hat
    · have hlen : (t.filter q).length ≤ (t.filter p).length :=
        List.Sublist.length_le (List.monotone_filter_right t (by simpa using hpq))
      simp [List.filter_cons, hpa, hqa]
      omega
    · have := ih hat
      by_cases hq : q x = true
      · simp [List.filter_cons, hq, hpq x hq]
        omega
      · have hq' : q x = false := by simpa using hq
        by_cases hp : p x = true
        · simp [List.filter_cons, hp, hq']
          omega
        · have hp' : p x = false := by simpa using hp
          simpa [List.filter_cons, hp', hq'] using this

lemma contains_eq_false {l : List String} {a : String} :
    l.contains a = false ↔ a ∉ l := by
  simp [List.contains]

lemma contains_eq_true {l : List String} {a : String} :
    l.contains a = true ↔ a ∈ l := by
  simp [List.contains]

/-- `collectFromImports` from resolve.go (lines 111-127): visit the list
of imports, skipping names already seen, recursing into a found module's
own imports before writing its definitions.  The visited set guarantees
termination; the result carries the fact that the visited set only grows,
which the termination argument needs. -/
def collectFromImports (index : List (String × Module)) :
    (imports : List String) → (seen : List String) → (defs : DefMap) →
    { r : List String × DefMap // ∀ x ∈ seen, x ∈ r.1 }
  | [], seen, defs => ⟨(seen, defs), fun _ hx => hx⟩
  | n :: rest, seen, defs =>
    if hseen : seen.contains n then
      let r := collectFromImports index rest seen defs
      ⟨r.1, r.2⟩
    else
      match hmod : lookupMod index n with
      | none =>
        let r := collectFromImports index rest (n :: seen) defs
        ⟨r.1, fun x hx => r.2 x (List.mem_cons_of_mem _ hx)⟩
      | some m =>
        let r1 := collectFromImports index m.imports (n :: seen) defs
        let r2 := collectFromImports index rest r1.1.1 (writeVars r1.1.2 m.vars)
        ⟨r2.1, fun x hx => r2.2 x (r1.2 x (List.mem_cons_of_mem _ hx))⟩
termination_by imports seen =>
  (((index.map Prod.fst).filter fun x => !(seen.contains x)).length,
    imports.length)
decreasing_by
  · apply Prod.Lex.right'
    · apply List.Sublist.length_le
      apply List.monotone_filter_right
      intro x hx
      exact hx
    · simp
  · apply Prod.Lex.right'
    · apply List.Sublist.length_le
      apply List.monotone_filter_right
      intro x hx
      simp only [Bool.not_eq_true'] at hx ⊢
      rw [contains_eq_false] at hx ⊢
      exact fun hmem => hx (List.mem_cons_of_mem _ hmem)
    · simp
  · apply Prod.Lex.left
    apply filter_length_lt (a := n)
    · intro x hx
      simp only [Bool.not_eq_true'] at hx ⊢
      rw [contains_eq_false] at hx ⊢
      exact fun hmem => hx (List.mem_cons_of_mem _ hmem)
    · exact lookupMod_some_mem hmod
    · simp only [Bool.not_eq_true']
      rw [contains_eq_false]
      rw [contains_eq_true] at hseen
      exact hseen
    · simp only [Bool.not_eq_false']
      rw [contains_eq_true]
      simp
  · apply Prod.Lex.left
    apply filter_length_lt (a := n)
    · intro x hx
      simp only [Bool.not_eq_true'] at hx ⊢
      rw [contains_eq_false] at hx ⊢
      exact fun hmem => hx (r1.2 x (List.mem_cons_of_mem _ hmem))
    · exact lookupMod_some_mem hmod
    · simp only [Bool.not_eq_true']
      rw [contains_eq_false]
      rw [contains_eq_true] at hseen
      exact hseen
    · simp only [Bool.not_eq_false']
      rw [contains_eq_true]
      exact r1.2 n (by simp)

/-- Lines 101-148 of resolve.go: the final name-to-definition map — the
imported sets first (first write per name wins), then the local
definitions written over them unconditionally. -/
def varDefsMap (cheat : Cheat) (index : List (String × Module)) : DefMap :=
  cheat.vars.foldl setDef
    (collectFromImports index cheat.imports [] (fun _ => none)).1.2

/-- `collectVariables` from resolve.go: one state per used variable, in
first-use order, synthesising a free-text definition (`Shell: ""`) when no
definition exists.  (The Go code also builds a `usedSet`, which it never
reads afterwards.) -/
def collectVariables (cheat : Cheat) (index : List (String × Module)) :
    List VarDef :=
  (findCommandVars cheat.command none).map fun n =>
    match varDefsMap cheat index n with
    | some d => d
    | none => ⟨n, "", ""⟩

/-! ## Session lemmas -/

/-- The default used by `stateAt` for out-of-range reads (never reached by
the guarded session loop). -/
def dflState : VarState := ⟨⟨"", "", ""⟩, "", false, ""⟩

lemma updateAt_getD_eq (f : VarState → VarState) (l : List VarState) (n : Nat)
    (hn : n < l.length) : (updateAt f l n).getD n dflState = f (l.getD n dflState) := by
  induction l generalizing n with
  | nil => simp at hn
  | cons x t ih =>
    cases n with
    | zero => simp [updateAt]
    | succ k =>
      have : k < t.length := by simpa using hn
      simpa [updateAt] using ih k this

lemma updateAt_getD_ne (f : VarState → VarState) (l : List VarState) (n j : Nat)
    (hj : j ≠ n) : (updateAt f l n).getD j dflState = l.getD j dflState := by
  induction l generalizing n j with
  | nil => simp [updateAt]
  | cons x t ih =>
    cases n with
    | zero =>
      cases j with
      | zero => exact absurd rfl hj
      | succ i => simp [updateAt]
    | succ k =>
      cases j with
      | zero => simp [updateAt]
      | succ i => simpa [updateAt] using ih k i (by omega)

lemma runSession_neg_idx (vars : List VarState) (idx : Int) (hidx : idx < 0)
    (script : List Interaction) : runSession vars idx script = .goBackToMain := by
  rw [runSession.eq_def]
  rw [if_neg (by omega), if_pos hidx]

/-- One unresolved step consumed by a `goBack = true` interaction. -/
lemma runSession_goBack (vars : List VarState) (idx : Int) (v : String)
    (rest : List Interaction)
    (h0 : 0 ≤ idx) (hlen : idx < (vars.length : Int))
    (hres : (stateAt vars idx).resolved = false) (hv : v ≠ "__EXIT__") :
    runSession vars idx (some (v, true) :: rest)
      = runSession (goBackStep vars idx).1 (idx - 1) rest := by
  rw [runSession.eq_def]
  rw [if_neg (show ¬((vars.length : Int) ≤ idx) by omega),
    if_neg (show ¬(idx < 0) by omega)]
  simp [hres, hv, goBackStep]

/-- One unresolved step consumed by a value interaction. -/
lemma runSession_value (vars : List VarState) (idx : Int) (v : String)
    (rest : List Interaction)
    (h0 : 0 ≤ idx) (hlen : idx < (vars.length : Int))
    (hres : (stateAt vars idx).resolved = false) (hv : v ≠ "__EXIT__") :
    runSession vars idx (some (v, false) :: rest)
      = runSession (setValueAt vars idx.toNat v) (idx + 1) rest := by
  rw [runSession.eq_def]
  rw [if_neg (show ¬((vars.length : Int) ≤ idx) by omega),
    if_neg (show ¬(idx < 0) by omega)]
  simp [hres, hv]

lemma getD_append_length (l1 : List VarState) (x : VarState) (l2 : List VarState) :
    (l1 ++ x :: l2).getD l1.length dflState = x := by
  induction l1 with
  | nil => simp
  | cons y t ih => simpa using ih

lemma updateAt_append_length (f : VarState → VarState) (l1 : List VarState)
    (x : VarState) (l2 : List VarState) :
    updateAt f (l1 ++ x :: l2) l1.length = l1 ++ f x :: l2 := by
  induction l1 with
  | nil => simp [updateAt]
  | cons y t ih => simpa [updateAt] using ih

/-- The fully-resolved states a forward-only session produces. -/
def finalStates (todo : List VarDef) (values : List String)
    (env : String → String) : List VarState :=
  List.zipWith (fun d v => ⟨d, v, true, env d.name⟩) todo values

/-- A session positioned at the first of the remaining unresolved
variables, fed one non-exit value per variable, resolves them all in
order. -/
lemma runSession_forward (todo : List VarDef) :
    ∀ (values : List String) (done : List VarState) (env : String → String),
      values.length = todo.length →
      (∀ v ∈ values, v ≠ "__EXIT__") →
      runSession (done ++ initStates todo env) (done.length : Int)
          (values.map fun v => some (v, false))
        = .completed (done ++ finalStates todo values env) := by
  induction todo with
  | nil =>
    intro values done env hlen hex
    have hv : values = [] := List.length_eq_zero.mp (by simpa using hlen)
    subst hv
    rw [runSession.eq_def]
    simp [initStates, finalStates]
  | cons d t ih =>
    intro values done env hlen hex
    cases values with
    | nil => simp at hlen
    | cons v vt =>
      have hvt : vt.length = t.length := by simpa using hlen
      have hvne : v ≠ "__EXIT__" := hex v (by simp)
      have hstate : stateAt (done ++ initStates (d :: t) env) (done.length : Int)
          = { vdef := d, value := "", resolved := false, prefill := env d.name } := by
        rw [stateAt, Int.toNat_ofNat, initStates]
        simpa using getD_append_length done _ _
      rw [List.map_cons,
        runSession_value _ _ _ _ (by omega)
          (by simp [initStates]) (by rw [hstate]) hvne]
      have hset : setValueAt (done ++ initStates (d :: t) env)
          ((done.length : Int)).toNat v
          = (done ++ [(⟨d, v, true, env d.name⟩ : VarState)])
              ++ initStates t env := by
        rw [Int.toNat_ofNat, setValueAt, initStates, List.map_cons]
        rw [updateAt_append_length]
        simp [initStates]
      rw [hset]
      have hex' : ∀ w ∈ vt, w ≠ "__EXIT__" := fun w hw => hex w (by simp [hw])
      have hih := ih vt (done ++ [(⟨d, v, true, env d.name⟩ : VarState)])
        env hvt hex'
      have hcast : ((done ++ [(⟨d, v, true, env d.name⟩ : VarState)]).length : Int)
          = (done.length : Int) + 1 := by simp
      rw [hcast] at hih
      rw [hih]
      simp [finalStates]

lemma filter_ne_key_eq_self {acc : List (String × String)} {k : String}
    (h : ∀ e ∈ acc, e.1 ≠ k) : (acc.filter fun e => e.1 ≠ k) = acc :=
  List.filter_eq_self.mpr (fun e he => by simpa using h e he)

/-- With pairwise-distinct fresh names, the scope merge writes one entry
per resolved state, most recent first. -/
lemma mergeScope_zip (todo : List VarDef) :
    ∀ (values : List String) (acc : List (String × String)) (env : String → String),
      values.length = todo.length →
      ((todo.map VarDef.name) ++ acc.map Prod.fst).Nodup →
      mergeScope acc (finalStates todo values env)
        = ((todo.map VarDef.name).zip values).reverse ++ acc := by
  induction todo with
  | nil =>
    intro values acc env hlen _
    have hv : values = [] := List.length_eq_zero.mp (by simpa using hlen)
    subst hv
    simp [mergeScope, finalStates]
  | cons d t ih =>
    intro values acc env hlen hnd
    cases values with
    | nil => simp at hlen
    | cons v vt =>
      have hvt : vt.length = t.length := by simpa using hlen
      have hstep : mergeScope acc (finalStates (d :: t) (v :: vt) env)
          = mergeScope (setKey acc d.name v) (finalStates t vt env) := by
        simp [mergeScope, finalStates]
      have hfresh : ∀ e ∈ acc, e.1 ≠ d.name := by
        intro e he hne
        have hmem : d.name ∈ acc.map Prod.fst :=
          hne ▸ List.mem_map_of_mem Prod.fst he
        have hd : d.name ∉ (t.map VarDef.name) ++ acc.map Prod.fst := by
          have h1 := hnd
          simp only [List.map_cons, List.cons_append, List.nodup_cons] at h1
          exact h1.1
        exact hd (List.mem_append_right _ hmem)
      have hkey : setKey acc d.name v = (d.name, v) :: acc := by
        rw [setKey, filter_ne_key_eq_self hfresh]
      have hnd' : ((t.map VarDef.name)
          ++ ((d.name, v) :: acc).map Prod.fst).Nodup := by
        simp only [List.map_cons, List.cons_append] at hnd
        simp only [List.map_cons]
        exact List.perm_middle.nodup_iff.mpr hnd
      rw [hstep, hkey, ih vt ((d.name, v) :: acc) env hvt hnd']
      simp

lemma lookupStr_of_nodup {l : List (String × String)}
    (hnd : (l.map Prod.fst).Nodup) {p : String × String} (hp : p ∈ l) :
    lookupStr l p.1 = p.2 := by
  induction l with
  | nil => simp at hp
  | cons e t ih =>
    have hnd' : (e.1 :: t.map Prod.fst).Nodup := by simpa using hnd
    rcases List.mem_cons.mp hp with rfl | hpt
    · simp [lookupStr]
    · have hne : e.1 ≠ p.1 := by
        intro he
        exact (List.nodup_cons.mp hnd').1 (he ▸ List.mem_map_of_mem Prod.fst hpt)
      rw [lookupStr, if_neg hne]
      exact ih (List.nodup_cons.mp hnd').2 hpt

/-! ## Collector lemmas -/

lemma writeIfAbsent_preserve {m : DefMap} {v : VarDef} {k : String} {d : VarDef}
    (h : m k = some d) : writeIfAbsent m v k = some d := by
  unfold writeIfAbsent
  cases hv : m v.name with
  | some w => exact h
  | none =>
    show (if k = v.name then some v else m k) = some d
    by_cases hk : k = v.name
    · subst hk
      rw [h] at hv
      exact absurd hv (by simp)
    · rw [if_neg hk]
      exact h

lemma writeVars_preserve {vs : List VarDef} :
    ∀ {m : DefMap} {k : String} {d : VarDef},
      m k = some d → writeVars m vs k = some d := by
  induction vs with
  | nil => intro m k d h; exact h
  | cons v t ih => intro m k d h; exact ih (writeIfAbsent_preserve h)

/-- A binding already present in the accumulator survives the whole import
traversal: the first write for a name wins, later imports never overwrite
it. -/
lemma collectFromImports_preserve (index : List (String × Module))
    (imports seen : List String) (defs : DefMap) :
    ∀ (k : String) (d : VarDef), defs k = some d →
      (collectFromImports index imports seen defs).1.2 k = some d := by
  induction imports, seen, defs using collectFromImports.induct index with
  | case1 seen defs =>
    intro k d h
    rw [collectFromImports]
    exact h
  | case2 n rest seen defs hseen ih =>
    intro k d h
    rw [collectFromImports, dif_pos hseen]
    exact ih k d h
  | case3 n rest seen defs hseen hmod ih =>
    intro k d h
    rw [collectFromImports, dif_neg hseen]
    split
    · exact ih k d h
    · rename_i m' heq
      rw [hmod] at heq
      cases heq
  | case4 n rest seen defs hseen m hmod r1 ih1 ih2 ih3 =>
    intro k d h
    rw [collectFromImports, dif_neg hseen]
    split
    · rename_i heq
      rw [hmod] at heq
      cases heq
    · rename_i m' heq
      rw [hmod] at heq
      injection heq with hm
      subst hm
      exact ih3 k d (writeVars_preserve (ih1 k d h))

/-- The Go-map overwrite fold of the local definitions (lines 131-133):
the last local definition written for a name. -/
def lastLocal (vs : List VarDef) (n : String) : Option VarDef :=
  vs.foldl (fun acc v => if v.name = n then some v else acc) none

lemma foldl_pick_shift (n : String) (vs : List VarDef) (a : Option VarDef) :
    vs.foldl (fun acc v => if v.name = n then some v else acc) a
      = match lastLocal vs n with
        | some d => some d
        | none => a := by
  induction vs generalizing a with
  | nil => simp [lastLocal]
  | cons v t ih =>
    show t.foldl (fun acc v => if v.name = n then some v else acc)
        (if v.name = n then some v else a)
      = match lastLocal (v :: t) n with
        | some d => some d
        | none => a
    have hh : lastLocal (v :: t) n
        = t.foldl (fun acc v => if v.name = n then some v else acc)
            (if v.name = n then some v else none) := rfl
    rw [ih, hh, ih]
    cases lastLocal t n with
    | some d => rfl
    | none => by_cases hv : v.name = n <;> simp [hv]

lemma foldl_setDef_lookup (vs : List VarDef) (m : DefMap) (n : String) :
    (vs.foldl setDef m) n
      = match lastLocal vs n with
        | some d => some d
        | none => m n := by
  induction vs generalizing m with
  | nil => simp [lastLocal]
  | cons v t ih =>
    show (t.foldl setDef (setDef m v)) n
      = match lastLocal (v :: t) n with
        | some d => some d
        | none => m n
    have hh : lastLocal (v :: t) n
        = t.foldl (fun acc v => if v.name = n then some v else acc)
            (if v.name = n then some v else none) := rfl
    rw [ih, hh, foldl_pick_shift]
    cases lastLocal t n with
    | some d => rfl
    | none =>
      show (if n = v.name then some v else m n)
        = match (if v.name = n then some v else none) with
          | some d => some d
          | none => m n
      by_cases hv : v.name = n
      · simp [hv]
      · simp [hv, Ne.symm hv]

/-! ## Depth-bounded import traversal (for the termination claim) -/

/-- The import traversal with an explicit bound on the recursion depth
(the nesting of `collectFromImports` into a found module's imports),
returning `none` when the bound is exhausted.  Mirrors the recursion of
`collectFromImports` exactly. -/
def collectDepth (index : List (String × Module)) :
    Nat → List String → List String → DefMap → Option (List String × DefMap)
  | _, [], seen, defs => some (seen, defs)
  | fuel, n :: rest, seen, defs =>
    if seen.contains n then
      collectDepth index fuel rest seen defs
    else
      match lookupMod index n with
      | none => collectDepth index fuel rest (n :: seen) defs
      | some m =>
        match fuel with
        | 0 => none
        | fuel' + 1 =>
          match collectDepth index fuel' m.imports (n :: seen) defs with
          | none => none
          | some (seen2, defs2) =>
            collectDepth index (fuel' + 1) rest seen2 (writeVars defs2 m.vars)
termination_by fuel imports => (fuel, imports.length)
decreasing_by
  · apply Prod.Lex.right
    simp
  · apply Prod.Lex.right
    simp
  · apply Prod.Lex.left
    omega
  · apply Prod.Lex.right
    simp

/-! ## Substitution commutation theory (claim C10) -/

/-- Bytes valid inside a variable name (the source's grammar, first
position excluded). -/
def identChar (c : Char) : Bool := isVarChar c false

lemma startsWith_append_self (o s : List Char) :
    startsWith o (o ++ s) = true := by
  induction o with
  | nil => rfl
  | cons a t ih => simp [startsWith, ih]

lemma startsWith_decomp {o s : List Char} (h : startsWith o s = true) :
    o ++ s.drop o.length = s := by
  induction o generalizing s with
  | nil => simp
  | cons a t ih =>
    cases s with
    | nil => simp [startsWith] at h
    | cons b bs =>
      rw [startsWith, Bool.and_eq_true, decide_eq_true_iff] at h
      obtain ⟨rfl, h2⟩ := h
      simpa using ih h2

lemma startsWith_cons_false {a : Char} {t : List Char} {b : Char}
    {bs : List Char} (hab : a ≠ b) : startsWith (a :: t) (b :: bs) = false := by
  rw [startsWith]
  simp [hab]

/-- `replaceAll` walks over a stretch that contains no `$` unchanged. -/
lemma replaceAll_append_nd (m v x y : List Char)
    (hx : ∀ c ∈ x, c ≠ '$') :
    replaceAll ('$' :: m) v (x ++ y) = x ++ replaceAll ('$' :: m) v y := by
  induction x with
  | nil => rfl
  | cons a t ih =>
    have ha : a ≠ '$' := hx a (by simp)
    rw [List.cons_append, replaceAll]
    have hsw : startsWith ('$' :: m) (a :: (t ++ y)) = false :=
      startsWith_cons_false (fun h => ha h.symm)
    rw [dif_neg (by simp [hsw])]
    rw [ih (fun c hc => hx c (List.mem_cons_of_mem _ hc))]
    rfl

lemma identChar_ne_dollar {c : Char} (h : identChar c = true) : c ≠ '$' := by
  intro hc
  rw [hc] at h
  exact absurd h (by decide)

/-- Replacing a pattern whose inserted text has no name bytes cannot
create a new occurrence of an identifier at the front. -/
lemma startsWith_replaceAll_false (m v : List Char)
    (hv : v ≠ []) (hvc : ∀ c ∈ v, identChar c = false) :
    ∀ (cs w : List Char), w ≠ [] → (∀ c ∈ w, identChar c = true) →
      startsWith w cs = false →
      startsWith w (replaceAll ('$' :: m) v cs) = false := by
  intro cs
  induction cs with
  | nil =>
    intro w hw _ _
    cases w with
    | nil => exact absurd rfl hw
    | cons b bs => rw [replaceAll]; rfl
  | cons d ds ih =>
    intro w hw hwc hsw
    cases w with
    | nil => exact absurd rfl hw
    | cons b bs =>
      rw [replaceAll]
      by_cases hm : ('$' :: m) ≠ [] ∧ startsWith ('$' :: m) (d :: ds) = true
      · rw [dif_pos hm]
        cases v with
        | nil => exact absurd rfl hv
        | cons w0 ws =>
          have hb : identChar b = true := hwc b (by simp)
          have hw0 : identChar w0 = false := hvc w0 (by simp)
          have hbw : b ≠ w0 := by
            intro h
            rw [h, hw0] at hb
            cases hb
          rw [List.cons_append]
          exact startsWith_cons_false hbw
      · rw [dif_neg hm]
        by_cases hbd : b = d
        · subst hbd
          rw [startsWith] at hsw ⊢
          simp only [Bool.and_eq_false_iff] at hsw ⊢
          rcases hsw with h1 | h2
          · exact absurd h1 (by simp)
          · right
            have hbsne : bs ≠ [] := by
              intro hnil
              rw [hnil] at h2
              exact absurd h2 (by simp [startsWith])
            exact ih bs hbsne
              (fun c hc => hwc c (List.mem_cons_of_mem _ hc)) h2
        · exact startsWith_cons_false hbd

/-- One-pass parallel replacement of two patterns, first pattern tried
first.  Used only to state the commutation of two `replaceAll` passes. -/
def par2 (n1 v1 n2 v2 : List Char) (s : List Char) : List Char :=
  match s with
  | [] => []
  | c :: cs =>
    if startsWith ('$' :: n1) (c :: cs) then
      v1 ++ par2 n1 v1 n2 v2 ((c :: cs).drop ('$' :: n1).length)
    else if startsWith ('$' :: n2) (c :: cs) then
      v2 ++ par2 n1 v1 n2 v2 ((c :: cs).drop ('$' :: n2).length)
    else
      c :: par2 n1 v1 n2 v2 cs
termination_by s.length
decreasing_by
  · simp only [List.length_drop, List.length_cons]
    omega
  · simp only [List.length_drop, List.length_cons]
    omega
  · simp

lemma startsWith_of_startsWith {a : List Char} :
    ∀ {b s : List Char}, startsWith a s = true → startsWith b s = true →
      a.length ≤ b.length → startsWith a b = true := by
  induction a with
  | nil => intro b s _ _ _; rfl
  | cons x xs ih =>
    intro b s ha hb hl
    cases b with
    | nil => simp at hl
    | cons y ys =>
      cases s with
      | nil => simp [startsWith] at ha
      | cons z zs =>
        rw [startsWith, Bool.and_eq_true, decide_eq_true_iff] at ha hb
        rw [startsWith, Bool.and_eq_true, decide_eq_true_iff]
        exact ⟨ha.1.trans hb.1.symm,
          ih ha.2 hb.2 (by simpa using hl)⟩

/-- With patterns that are not prefixes of one another, at most one can
match at a position, so the parallel replacement is symmetric. -/
lemma par2_symm (n1 v1 n2 v2 : List Char)
    (h12 : startsWith n1 n2 = false) (h21 : startsWith n2 n1 = false) :
    ∀ s, par2 n1 v1 n2 v2 s = par2 n2 v2 n1 v1 s := by
  have hnotboth : ∀ c : Char, ∀ cs : List Char,
      startsWith ('$' :: n1) (c :: cs) = true →
      startsWith ('$' :: n2) (c :: cs) = true → False := by
    intro c cs h1 h2
    rcases Nat.le_total ('$' :: n1).length ('$' :: n2).length with hl | hl
    · have hsw := startsWith_of_startsWith h1 h2 hl
      rw [startsWith, Bool.and_eq_true] at hsw
      rw [hsw.2] at h12
      cases h12
    · have hsw := startsWith_of_startsWith h2 h1 hl
      rw [startsWith, Bool.and_eq_true] at hsw
      rw [hsw.2] at h21
      cases h21
  have main : ∀ (k : Nat) (s : List Char), s.length ≤ k →
      par2 n1 v1 n2 v2 s = par2 n2 v2 n1 v1 s := by
    intro k
    induction k with
    | zero =>
      intro s hs
      rw [List.length_eq_zero.mp (Nat.le_zero.mp hs)]
      rw [par2, par2]
    | succ k ih =>
      intro s hs
      cases s with
      | nil => rw [par2, par2]
      | cons c cs =>
        rw [par2, par2]
        by_cases h1 : startsWith ('$' :: n1) (c :: cs) = true
        · have h2 : startsWith ('$' :: n2) (c :: cs) = false := by
            by_cases hx : startsWith ('$' :: n2) (c :: cs) = true
            · exact absurd (hnotboth c cs h1 hx) not_false
            · simpa using hx
          rw [if_pos h1, if_neg (by simp [h2]), if_pos h1]
          have hlen : ((c :: cs).drop ('$' :: n1).length).length ≤ k := by
            simp only [List.length_drop, List.length_cons]
            simp only [List.length_cons] at hs
            omega
          rw [ih _ hlen]
        · by_cases h2 : startsWith ('$' :: n2) (c :: cs) = true
          · rw [if_neg (by simp [h1]), if_pos h2, if_pos h2]
            have hlen : ((c :: cs).drop ('$' :: n2).length).length ≤ k := by
              simp only [List.length_drop, List.length_cons]
              simp only [List.length_cons] at hs
              omega
            rw [ih _ hlen]
          · rw [if_neg (by simp [h1]), if_neg (by simp [h2]),
              if_neg (by simp [h2]), if_neg (by simp [h1])]
            have hlen : cs.length ≤ k := by
              simp only [List.length_cons] at hs
              omega
            rw [ih _ hlen]
  exact fun s => main s.length s le_rfl


/-- Two sequential `replaceAll` passes whose patterns are `$`-prefixed
identifier names, mutually non-prefix, with inserted text free of `$` and
of name bytes, equal the one-pass parallel replacement. -/
lemma replaceAll_replaceAll_eq_par2
    (n1 v1 n2 v2 : List Char)
    (hn2 : n2 ≠ []) (hc2 : ∀ c ∈ n2, identChar c = true)
    (hv1 : v1 ≠ []) (hvc1 : ∀ c ∈ v1, identChar c = false ∧ c ≠ '$') :
    ∀ s, replaceAll ('$' :: n2) v2 (replaceAll ('$' :: n1) v1 s)
      = par2 n1 v1 n2 v2 s := by
  have main : ∀ (k : Nat) (s : List Char), s.length ≤ k →
      replaceAll ('$' :: n2) v2 (replaceAll ('$' :: n1) v1 s)
        = par2 n1 v1 n2 v2 s := by
    intro k
    induction k with
    | zero =>
      intro s hs
      rw [List.length_eq_zero.mp (Nat.le_zero.mp hs)]
      rw [replaceAll, replaceAll, par2]
    | succ k ih =>
      intro s hs
      cases s with
      | nil => rw [replaceAll, replaceAll, par2]
      | cons c cs =>
        by_cases h1 : startsWith ('$' :: n1) (c :: cs) = true
        · have hstep : replaceAll ('$' :: n1) v1 (c :: cs)
              = v1 ++ replaceAll ('$' :: n1) v1
                  ((c :: cs).drop ('$' :: n1).length) := by
            rw [replaceAll, dif_pos ⟨by simp, h1⟩]
          rw [hstep,
            replaceAll_append_nd _ _ _ _ (fun x hx => (hvc1 x hx).2)]
          have hlen : ((c :: cs).drop ('$' :: n1).length).length ≤ k := by
            simp only [List.length_drop, List.length_cons]
            simp only [List.length_cons] at hs
            omega
          rw [ih _ hlen, par2, if_pos h1]
        · by_cases h2 : startsWith ('$' :: n2) (c :: cs) = true
          · have hc' : '$' = c ∧ startsWith n2 cs = true := by
              rw [startsWith, Bool.and_eq_true, decide_eq_true_iff] at h2
              exact h2
            obtain ⟨hdol, hn2cs⟩ := hc'
            subst hdol
            have hdecomp : n2 ++ cs.drop n2.length = cs :=
              startsWith_decomp hn2cs
            have hstep1 : replaceAll ('$' :: n1) v1 ('$' :: cs)
                = '$' :: replaceAll ('$' :: n1) v1 cs := by
              rw [replaceAll, dif_neg (by simp [h1])]
            have hstep2 : replaceAll ('$' :: n1) v1 cs
                = n2 ++ replaceAll ('$' :: n1) v1 (cs.drop n2.length) := by
              conv_lhs => rw [← hdecomp]
              exact replaceAll_append_nd _ _ _ _
                (fun x hx => identChar_ne_dollar (hc2 x hx))
            rw [hstep1, hstep2]
            have hself : startsWith ('$' :: n2)
                ('$' :: (n2 ++ replaceAll ('$' :: n1) v1 (cs.drop n2.length)))
                  = true := by
              have hsa := startsWith_append_self ('$' :: n2)
                (replaceAll ('$' :: n1) v1 (cs.drop n2.length))
              simpa using hsa
            rw [replaceAll, dif_pos ⟨by simp, hself⟩]
            have hdrop : ('$' :: (n2 ++ replaceAll ('$' :: n1) v1
                  (cs.drop n2.length))).drop ('$' :: n2).length
                = replaceAll ('$' :: n1) v1 (cs.drop n2.length) := by
              simp only [List.length_cons, List.drop_succ_cons]
              exact List.drop_left n2 _
            rw [hdrop]
            have hlen : (cs.drop n2.length).length ≤ k := by
              simp only [List.length_drop]
              simp only [List.length_cons] at hs
              omega
            rw [ih _ hlen, par2, if_neg (by simp [h1]), if_pos h2]
            simp only [List.length_cons, List.drop_succ_cons]
          · have hstep1 : replaceAll ('$' :: n1) v1 (c :: cs)
                = c :: replaceAll ('$' :: n1) v1 cs := by
              rw [replaceAll, dif_neg (by simp [h1])]
            rw [hstep1]
            have hnomatch : startsWith ('$' :: n2)
                (c :: replaceAll ('$' :: n1) v1 cs) = false := by
              by_cases hcd : c = '$'
              · subst hcd
                have hn2cs : startsWith n2 cs = false := by
                  rw [startsWith] at h2
                  simpa using h2
                have hnp := startsWith_replaceAll_false n1 v1 hv1
                  (fun x hx => (hvc1 x hx).1) cs n2 hn2 hc2 hn2cs
                rw [startsWith]
                simp [hnp]
              · exact startsWith_cons_false (fun h => hcd h.symm)
            rw [replaceAll, dif_neg (by simp [hnomatch])]
            have hlen : cs.length ≤ k := by
              simp only [List.length_cons] at hs
              omega
            rw [ih _ hlen, par2, if_neg (by simp [h1]), if_neg (by simp [h2])]
  exact fun s => main s.length s le_rfl

/-- Substituting two scope entries with non-prefix identifier names and
opaque values commutes, whatever the intermediate string. -/
lemma replaceAll_comm (n1 v1 n2 v2 : List Char)
    (hn1 : n1 ≠ []) (hc1 : ∀ c ∈ n1, identChar c = true)
    (hn2 : n2 ≠ []) (hc2 : ∀ c ∈ n2, identChar c = true)
    (hv1 : v1 ≠ []) (hvc1 : ∀ c ∈ v1, identChar c = false ∧ c ≠ '$')
    (hv2 : v2 ≠ []) (hvc2 : ∀ c ∈ v2, identChar c = false ∧ c ≠ '$')
    (h12 : startsWith n1 n2 = false) (h21 : startsWith n2 n1 = false)
    (z : List Char) :
    replaceAll ('$' :: n2) v2 (replaceAll ('$' :: n1) v1 z)
      = replaceAll ('$' :: n1) v1 (replaceAll ('$' :: n2) v2 z) := by
  rw [replaceAll_replaceAll_eq_par2 n1 v1 n2 v2 hn2 hc2 hv1 hvc1 z,
    replaceAll_replaceAll_eq_par2 n2 v2 n1 v1 hn1 hc1 hv2 hvc2 z,
    par2_symm n1 v1 n2 v2 h12 h21 z]

/-- A scope name the commutation theorem accepts: a non-empty identifier
(letters, digits, underscores), as the resolver produces. -/
def OkSubstName (n : String) : Prop :=
  n.data ≠ [] ∧ ∀ c ∈ n.data, identChar c = true

/-- A scope value the commutation theorem accepts: non-empty, free of `$`
and of identifier bytes, so it can neither start a new reference nor
extend a neighbouring name. -/
def OkSubstVal (v : String) : Prop :=
  v.data ≠ [] ∧ ∀ c ∈ v.data, identChar c = false ∧ c ≠ '$'

instance (n : String) : Decidable (OkSubstName n) := by
  unfold OkSubstName; infer_instance

instance (v : String) : Decidable (OkSubstVal v) := by
  unfold OkSubstVal; infer_instance


/-! ## Small facts used by the claim theorems -/

lemma filterOptions_filtered (m : VarSelectModel) :
    (filterOptions m).filtered
      = if goTrim (goLower m.textValue) = "" then m.options
        else m.options.filter fun opt =>
          matchesAllWords (goLower opt) (goFields (goTrim (goLower m.textValue))) :=
  rfl

lemma filterOptions_cursor (m : VarSelectModel) :
    (filterOptions m).cursor
      = clamp m.cursor 0 (maxInt 0 ((filterOptions m).filtered.length - 1)) :=
  rfl

lemma clamp_bounds (x lo hi : Int) (h : lo ≤ hi) :
    lo ≤ clamp x lo hi ∧ clamp x lo hi ≤ hi := by
  unfold clamp maxInt
  refine ⟨?_, ?_⟩ <;> (split <;> split <;> omega)

lemma maxInt_zero_nonneg (y : Int) : (0 : Int) ≤ maxInt 0 y := by
  unfold maxInt
  split <;> omega

lemma filter_unseen_mono {seen1 seen2 : List String}
    (h : ∀ x ∈ seen1, x ∈ seen2) (l : List String) :
    (l.filter fun x => !(seen2.contains x)).length
      ≤ (l.filter fun x => !(seen1.contains x)).length := by
  apply List.Sublist.length_le
  apply List.monotone_filter_right
  intro x hx
  simp only [Bool.not_eq_true'] at hx ⊢
  rw [contains_eq_false] at hx ⊢
  exact fun hmem => hx (h x hmem)

/-- Fuel sufficiency: once the depth bound covers the modules not yet
visited, the depth-bounded traversal succeeds and agrees with
`collectFromImports`. -/
lemma collectDepth_eq (index : List (String × Module))
    (imports seen : List String) (defs : DefMap) :
    ∀ fuel : Nat,
      (((index.map Prod.fst).filter fun x => !(seen.contains x)).length ≤ fuel) →
      collectDepth index fuel imports seen defs
        = some (collectFromImports index imports seen defs).1 := by
  induction imports, seen, defs using collectFromImports.induct index with
  | case1 seen defs =>
    intro fuel _
    rw [collectDepth, collectFromImports]
  | case2 n rest seen defs hseen ih =>
    intro fuel hf
    rw [collectDepth, collectFromImports, if_pos hseen, dif_pos hseen]
    exact ih fuel hf
  | case3 n rest seen defs hseen hmod ih =>
    intro fuel hf
    have hL : collectDepth index fuel (n :: rest) seen defs
        = collectDepth index fuel rest (n :: seen) defs := by
      rw [collectDepth, if_neg hseen, hmod]
    rw [hL, collectFromImports, dif_neg hseen]
    split
    · exact ih fuel
        (le_trans (filter_unseen_mono (fun x hx => List.mem_cons_of_mem _ hx) _) hf)
    · rename_i m' heq
      rw [hmod] at heq
      cases heq
  | case4 n rest seen defs hseen m hmod r1 ih1 ih2 ih3 =>
    intro fuel hf
    have hlt : ((index.map Prod.fst).filter
          fun x => !((n :: seen).contains x)).length
        < ((index.map Prod.fst).filter fun x => !(seen.contains x)).length := by
      apply filter_length_lt (a := n)
      · intro x hx
        simp only [Bool.not_eq_true'] at hx ⊢
        rw [contains_eq_false] at hx ⊢
        exact fun hmem => hx (List.mem_cons_of_mem _ hmem)
      · exact lookupMod_some_mem hmod
      · simp only [Bool.not_eq_true']
        rw [contains_eq_false]
        rw [contains_eq_true] at hseen
        exact hseen
      · simp only [Bool.not_eq_false']
        rw [contains_eq_true]
        simp
    obtain ⟨fuel', rfl⟩ : ∃ f', fuel = f' + 1 := ⟨fuel - 1, by omega⟩
    have hinner : collectDepth index fuel' m.imports (n :: seen) defs
        = some (collectFromImports index m.imports (n :: seen) defs).1 := by
      apply ih1
      omega
    have hL : collectDepth index (fuel' + 1) (n :: rest) seen defs
        = match collectDepth index fuel' m.imports (n :: seen) defs with
          | none => none
          | some (seen2, defs2) =>
            collectDepth index (fuel' + 1) rest seen2 (writeVars defs2 m.vars) := by
      rw [collectDepth, if_neg hseen, hmod]
    rw [hL, hinner]
    show collectDepth index (fuel' + 1) rest
        (collectFromImports index m.imports (n :: seen) defs).1.1
        (writeVars (collectFromImports index m.imports (n :: seen) defs).1.2
          m.vars)
      = _
    rw [collectFromImports, dif_neg hseen]
    split
    · rename_i heq
      rw [hmod] at heq
      cases heq
    · rename_i m' heq
      rw [hmod] at heq
      injection heq with hm
      subst hm
      apply ih3
      have hsub := (collectFromImports index m.imports (n :: seen) defs).2
      have hmono := filter_unseen_mono
        (fun x hx => hsub x (List.mem_cons_of_mem _ hx)) (index.map Prod.fst)
      omega

/-! ## Claim theorems -/

/-- **C1** (counterexample).  The claim says every string the user submits
as a value — including the literal text `"__EXIT__"` — is recorded as the
variable's resolved value.  In the source it is not: the select model's
enter handler stores the field text `"__EXIT__"` in `m.selected`,
`SelectWithTUI` returns it as the sentinel, and the session treats it as
the global-exit signal (`os.Exit(0)`); the input model behaves the same
way. -/
theorem C1_sentinel_cex :
    selectOutcome (filterOptions
        ⟨"name", ["alpha"], ["alpha"], 0, "__EXIT__", "", false⟩) .enter
      ≠ Outcome.value "__EXIT__"
    ∧ selectOutcome (filterOptions
        ⟨"name", ["alpha"], ["alpha"], 0, "__EXIT__", "", false⟩) .enter
      = Outcome.globalExit
    ∧ promptOutcome ⟨"name", "__EXIT__", "", false⟩ .enter
      = Outcome.globalExit := by
  refine ⟨?_, ?_, ?_⟩ <;> decide

/-- **C1** (amended).  The interactive components' outcomes, read through
the session's interpretation, form the tagged result
`Value / GoBack / GlobalExit`; every user-submitted string other than the
literal `"__EXIT__"` is recorded as a value, escape maps to `GoBack`, and
interrupt to `GlobalExit`.  (The literal `"__EXIT__"` is conflated with
the exit signal — the correction to the claim.) -/
theorem C1_tagged_outcomes (mi : VarInputModel) (ms : VarSelectModel) :
    (mi.cancelled = false → mi.textValue ≠ "__EXIT__" →
      promptOutcome mi .enter = .value mi.textValue)
    ∧ (mi.value ≠ "__EXIT__" → promptOutcome mi .esc = .goBack)
    ∧ promptOutcome mi .ctrlC = .globalExit
    ∧ (ms.cancelled = false →
        (if ms.cursor < (ms.filtered.length : Int)
          then ms.filtered.getD ms.cursor.toNat "" else ms.textValue)
          ≠ "__EXIT__" →
        selectOutcome ms .enter
          = .value (if ms.cursor < (ms.filtered.length : Int)
              then ms.filtered.getD ms.cursor.toNat "" else ms.textValue))
    ∧ (ms.selected ≠ "__EXIT__" → selectOutcome ms .esc = .goBack)
    ∧ selectOutcome ms .ctrlC = .globalExit := by
  refine ⟨?_, ?_, ?_, ?_, ?_, ?_⟩
  · intro h1 h2
    simp [promptOutcome, handleKeyPressInput, promptWithTUIResult,
      sessionInterpret, h1, h2]
  · intro h
    simp [promptOutcome, handleKeyPressInput, promptWithTUIResult,
      sessionInterpret, h]
  · simp [promptOutcome, handleKeyPressInput, promptWithTUIResult,
      sessionInterpret]
  · intro h1 h2
    by_cases hc : ms.cursor < (ms.filtered.length : Int)
    · rw [if_pos hc] at h2 ⊢
      have h2' : (ms.filtered[ms.cursor.toNat]?.getD "") ≠ "__EXIT__" := by
        simpa using h2
      simp [selectOutcome, handleKeyPressSelect, selectWithTUIResult,
        sessionInterpret, hc, h1, h2']
    · rw [if_neg hc] at h2 ⊢
      simp [selectOutcome, handleKeyPressSelect, selectWithTUIResult,
        sessionInterpret, hc, h1, h2]
  · intro h
    simp [selectOutcome, handleKeyPressSelect, selectWithTUIResult,
      sessionInterpret, h]
  · simp [selectOutcome, handleKeyPressSelect, selectWithTUIResult,
      sessionInterpret]

/-- Witness for `C1_tagged_outcomes` at a concrete model. -/
theorem C1_tagged_outcomes_witness :
    promptOutcome ⟨"n", "hello", "", false⟩ .enter = Outcome.value "hello"
    ∧ selectOutcome ⟨"n", ["a"], ["a"], 0, "t", "", false⟩ .enter
      = Outcome.value "a" := by
  have h := C1_tagged_outcomes ⟨"n", "hello", "", false⟩
    ⟨"n", ["a"], ["a"], 0, "t", "", false⟩
  refine ⟨h.1 (by decide) (by decide), ?_⟩
  have h4 := h.2.2.2.1 (by decide) (by decide)
  simpa using h4

/-- **C2**.  A `GoBack` interaction at an in-range, unresolved step moves
the cursor back by one; when the new cursor is still in range only that
step is invalidated (pending, value cleared) and every other position is
untouched; a cursor of −1 makes the session return the go-back-to-caller
signal, not an error. -/
theorem C2_goback_semantics (vars : List VarState) (idx : Int) (v : String)
    (rest : List Interaction)
    (h0 : 0 ≤ idx) (hlen : idx < (vars.length : Int))
    (hres : (stateAt vars idx).resolved = false) (hv : v ≠ "__EXIT__") :
    (runSession vars idx (some (v, true) :: rest)
        = runSession (goBackStep vars idx).1 (idx - 1) rest)
    ∧ (goBackStep vars idx).2 = idx - 1
    ∧ (1 ≤ idx →
        stateAt (goBackStep vars idx).1 (idx - 1)
          = { stateAt vars (idx - 1) with resolved := false, value := "" })
    ∧ (1 ≤ idx → ∀ j : Nat, j ≠ (idx - 1).toNat →
        (goBackStep vars idx).1.getD j dflState = vars.getD j dflState)
    ∧ (∀ (vars' : List VarState) (script' : List Interaction),
        runSession vars' (-1) script' = .goBackToMain)
    ∧ (idx = 0 → runSession vars idx (some (v, true) :: rest)
        = .goBackToMain) := by
  refine ⟨runSession_goBack vars idx v rest h0 hlen hres hv, rfl, ?_, ?_, ?_, ?_⟩
  · intro h1
    show stateAt (if (0 : Int) ≤ idx - 1
        then invalidateAt vars (idx - 1).toNat else vars) (idx - 1) = _
    rw [if_pos (by omega), stateAt, stateAt, invalidateAt]
    exact updateAt_getD_eq _ vars (idx - 1).toNat (by omega)
  · intro h1 j hj
    show (if (0 : Int) ≤ idx - 1
        then invalidateAt vars (idx - 1).toNat else vars).getD j dflState = _
    rw [if_pos (by omega), invalidateAt]
    exact updateAt_getD_ne _ vars (idx - 1).toNat j hj
  · intro vars' script'
    exact runSession_neg_idx vars' (-1) (by omega) script'
  · intro h
    subst h
    rw [runSession_goBack vars 0 v rest h0 hlen hres hv]
    exact runSession_neg_idx _ (0 - 1) (by omega) rest

/-- Witness for `C2_goback_semantics`: a two-variable session, going back
from step 1. -/
theorem C2_goback_semantics_witness :
    stateAt (goBackStep
        [⟨⟨"a", "", ""⟩, "v0", true, ""⟩, ⟨⟨"b", "", ""⟩, "", false, ""⟩] 1).1 0
      = ⟨⟨"a", "", ""⟩, "", false, ""⟩
    ∧ (goBackStep
        [⟨⟨"a", "", ""⟩, "v0", true, ""⟩, ⟨⟨"b", "", ""⟩, "", false, ""⟩] 1).1.getD
          1 dflState
      = ⟨⟨"b", "", ""⟩, "", false, ""⟩ := by
  have h := C2_goback_semantics
    [⟨⟨"a", "", ""⟩, "v0", true, ""⟩, ⟨⟨"b", "", ""⟩, "", false, ""⟩] 1 "x" []
    (by decide) (by decide) (by decide) (by decide)
  constructor
  · have h3 := h.2.2.1 (by decide)
    rw [show (1 : Int) - 1 = 0 from rfl] at h3
    rw [h3]
    decide
  · have h4 := h.2.2.2.1 (by decide) 1 (by decide)
    rw [h4]
    decide

/-- **C3** (counterexample).  In a session whose variable 0 is resolved
(value `"a"`) while variable 1 is being prompted, a `GoBack` issued from
variable 1 does NOT leave variable 0 resolved: lines 77-81 of resolve.go
invalidate the immediate predecessor, so variable 0 comes back pending
with its value cleared. -/
theorem C3_goback_cex :
    ¬ ((stateAt (goBackStep
          [⟨⟨"x", "", ""⟩, "a", true, ""⟩, ⟨⟨"y", "", ""⟩, "", false, ""⟩]
          1).1 0).resolved = true
        ∧ (stateAt (goBackStep
          [⟨⟨"x", "", ""⟩, "a", true, ""⟩, ⟨⟨"y", "", ""⟩, "", false, ""⟩]
          1).1 1).resolved = false) := by
  decide

/-- **C3** (amended).  A `GoBack` from variable 1 moves the cursor to
variable 0 and marks variable 0 pending with its value cleared; variable 1
stays pending and no other field of either state changes. -/
theorem C3_goback_amended (d0 d1 : VarDef) (v0 p0 p1 : String) :
    goBackStep [⟨d0, v0, true, p0⟩, ⟨d1, "", false, p1⟩] 1
      = ([⟨d0, "", false, p0⟩, ⟨d1, "", false, p1⟩], 0) := by
  rfl

/-- **C4**.  An N-variable session given one non-exit value per variable
and no back navigation completes, resolving every variable in order with
the submitted value, and the merged scope carries exactly N entries, one
per variable name, mapping each name to its submitted value. -/
theorem C4_forward_session (defs : List VarDef) (values : List String)
    (env : String → String)
    (hlen : values.length = defs.length)
    (hex : ∀ v ∈ values, v ≠ "__EXIT__")
    (hnd : (defs.map VarDef.name).Nodup) :
    runSession (initStates defs env) 0 (values.map fun v => some (v, false))
        = .completed (finalStates defs values env)
    ∧ mergeScope [] (finalStates defs values env)
        = ((defs.map VarDef.name).zip values).reverse
    ∧ (mergeScope [] (finalStates defs values env)).length = defs.length
    ∧ (∀ p ∈ (defs.map VarDef.name).zip values,
        lookupStr (mergeScope [] (finalStates defs values env)) p.1 = p.2) := by
  have h1 := runSession_forward defs values [] env hlen hex
  have h2 := mergeScope_zip defs values [] env hlen (by simpa using hnd)
  have hkeys : ((defs.map VarDef.name).zip values).map Prod.fst
      = defs.map VarDef.name :=
    List.map_fst_zip _ _ (by simp [hlen])
  refine ⟨by simpa using h1, by simpa using h2, ?_, ?_⟩
  · rw [h2]
    simp [List.length_zip, hlen]
  · intro p hp
    rw [h2]
    have hrev : ((defs.map VarDef.name).zip values).reverse ++ []
        = ((defs.map VarDef.name).zip values).reverse := by simp
    rw [hrev]
    apply lookupStr_of_nodup
    · rw [List.map_reverse, hkeys]
      exact List.nodup_reverse.mpr hnd
    · exact List.mem_reverse.mpr hp

/-- Witness for `C4_forward_session`: a two-variable forward session. -/
theorem C4_forward_session_witness :
    runSession (initStates [⟨"a", "", ""⟩, ⟨"b", "", ""⟩] (fun _ => "")) 0
        ([some ("1", false), some ("2", false)])
      = .completed
          (finalStates [⟨"a", "", ""⟩, ⟨"b", "", ""⟩] ["1", "2"] (fun _ => ""))
    ∧ lookupStr (mergeScope []
        (finalStates [⟨"a", "", ""⟩, ⟨"b", "", ""⟩] ["1", "2"] (fun _ => "")))
        "a" = "1" := by
  have h := C4_forward_session [⟨"a", "", ""⟩, ⟨"b", "", ""⟩] ["1", "2"]
    (fun _ => "") (by decide) (by decide) (by decide)
  exact ⟨by simpa using h.1, h.2.2.2 ("a", "1") (by decide)⟩

/-- **C5**.  For a definition with a non-blank value command: an execution
failure falls back to free text with no error surfaced; an output of zero
or one non-empty trimmed lines falls back to free text; two or more lines
go to the selector with exactly the trimmed lines in order — and
`splitLines` turns `"a\nb\nc\n"` into exactly 3 candidates. -/
theorem C5_value_source_resolver :
    (∀ (v : VarDef) (scope : List (String × String))
        (ex : String → Except String String) (e : String),
        goTrim v.shell ≠ "" →
        ex (substScope v.shell scope) = .error e →
        resolveVarRoute v scope ex = .freeText)
    ∧ (∀ (v : VarDef) (scope : List (String × String))
        (ex : String → Except String String) (out : String),
        goTrim v.shell ≠ "" →
        ex (substScope v.shell scope) = .ok out →
        (splitLines out).length ≤ 1 →
        resolveVarRoute v scope ex = .freeText)
    ∧ (∀ (v : VarDef) (scope : List (String × String))
        (ex : String → Except String String) (out : String),
        goTrim v.shell ≠ "" →
        ex (substScope v.shell scope) = .ok out →
        2 ≤ (splitLines out).length →
        resolveVarRoute v scope ex = .selectList (splitLines out))
    ∧ splitLines "a\nb\nc\n" = ["a", "b", "c"] := by
  refine ⟨?_, ?_, ?_, by decide⟩
  · intro v scope ex e hb herr
    rw [resolveVarRoute, if_neg hb, herr]
  · intro v scope ex out hb hok hle
    rw [resolveVarRoute, if_neg hb, hok]
    show (match splitLines out with
      | [] => Route.freeText
      | [_] => Route.freeText
      | l => Route.selectList l) = Route.freeText
    cases hsp : splitLines out with
    | nil => rfl
    | cons x t =>
      cases t with
      | nil => rfl
      | cons y t2 =>
        rw [hsp] at hle
        simp at hle
  · intro v scope ex out hb hok hge
    rw [resolveVarRoute, if_neg hb, hok]
    show (match splitLines out with
      | [] => Route.freeText
      | [_] => Route.freeText
      | l => Route.selectList l) = Route.selectList (splitLines out)
    cases hsp : splitLines out with
    | nil =>
      rw [hsp] at hge
      simp at hge
    | cons x t =>
      cases t with
      | nil =>
        rw [hsp] at hge
        simp at hge
      | cons y t2 => rfl

/-- Witness for `C5_value_source_resolver` at concrete executors. -/
theorem C5_value_source_resolver_witness :
    resolveVarRoute ⟨"x", "cmd", ""⟩ []
        (fun _ => .error "boom") = Route.freeText
    ∧ resolveVarRoute ⟨"x", "cmd", ""⟩ []
        (fun _ => .ok "solo") = Route.freeText
    ∧ resolveVarRoute ⟨"x", "cmd", ""⟩ []
        (fun _ => .ok "a\nb\nc\n") = Route.selectList ["a", "b", "c"] := by
  refine ⟨C5_value_source_resolver.1 ⟨"x", "cmd", ""⟩ []
      (fun _ => .error "boom") "boom" (by decide) rfl,
    C5_value_source_resolver.2.1 ⟨"x", "cmd", ""⟩ []
      (fun _ => .ok "solo") "solo" (by decide) rfl (by decide), ?_⟩
  have h := C5_value_source_resolver.2.2.1 ⟨"x", "cmd", ""⟩ []
    (fun _ => .ok "a\nb\nc\n") "a\nb\nc\n" (by decide) rfl (by decide)
  rw [h]
  decide

/-- **C6**.  In the collected definition map, a local definition always
overrides any import-derived one for the same name (the last local write
wins, as Go map assignment does); among imports the first write for a name
wins — a binding present in the accumulator is never overwritten by the
rest of the traversal; and a used name with no definition anywhere becomes
a synthetic free-text-only definition rather than an error. -/
theorem C6_definition_collector (cheat : Cheat) (index : List (String × Module))
    (n : String) :
    (∀ d : VarDef, lastLocal cheat.vars n = some d →
      varDefsMap cheat index n = some d)
    ∧ (∀ (imports seen : List String) (acc : DefMap) (d : VarDef),
        acc n = some d →
        (collectFromImports index imports seen acc).1.2 n = some d)
    ∧ (varDefsMap cheat index n = none →
        n ∈ findCommandVars cheat.command none →
        (⟨n, "", ""⟩ : VarDef) ∈ collectVariables cheat index) := by
  refine ⟨?_, ?_, ?_⟩
  · intro d hd
    rw [varDefsMap, foldl_setDef_lookup, hd]
  · intro imports seen acc d h
    exact collectFromImports_preserve index imports seen acc n d h
  · intro hnone hmem
    rw [collectVariables]
    have hv : (fun k => match varDefsMap cheat index k with
        | some d => d
        | none => (⟨k, "", ""⟩ : VarDef)) n = (⟨n, "", ""⟩ : VarDef) := by
      show (match varDefsMap cheat index n with
        | some d => d
        | none => (⟨n, "", ""⟩ : VarDef)) = (⟨n, "", ""⟩ : VarDef)
      rw [hnone]
    exact hv ▸ List.mem_map_of_mem _ hmem

/-- Witness for `C6_definition_collector`: a local override, a
preserved import binding, and a synthetic definition. -/
theorem C6_definition_collector_witness :
    varDefsMap ⟨"run $z $w", ["A"], [⟨"z", "zz", ""⟩]⟩
        [("A", ⟨["B"], [⟨"x", "fromA", ""⟩]⟩), ("B", ⟨[], [⟨"x", "fromB", ""⟩]⟩)]
        "z" = some ⟨"z", "zz", ""⟩
    ∧ (collectFromImports
        [("A", ⟨["B"], [⟨"x", "fromA", ""⟩]⟩), ("B", ⟨[], [⟨"x", "fromB", ""⟩]⟩)]
        ["A"] [] (fun k => if k = "x" then some ⟨"x", "acc", ""⟩ else none)).1.2
        "x" = some ⟨"x", "acc", ""⟩
    ∧ (⟨"w", "", ""⟩ : VarDef) ∈ collectVariables ⟨"$w", [], []⟩ [] := by
  refine ⟨(C6_definition_collector ⟨"run $z $w", ["A"], [⟨"z", "zz", ""⟩]⟩
      [("A", ⟨["B"], [⟨"x", "fromA", ""⟩]⟩), ("B", ⟨[], [⟨"x", "fromB", ""⟩]⟩)]
      "z").1 ⟨"z", "zz", ""⟩ (by decide),
    (C6_definition_collector ⟨"run $z $w", ["A"], [⟨"z", "zz", ""⟩]⟩
      [("A", ⟨["B"], [⟨"x", "fromA", ""⟩]⟩), ("B", ⟨[], [⟨"x", "fromB", ""⟩]⟩)]
      "x").2.1 ["A"] []
      (fun k => if k = "x" then some ⟨"x", "acc", ""⟩ else none)
      ⟨"x", "acc", ""⟩ (by simp),
    (C6_definition_collector ⟨"$w", [], []⟩ [] "w").2.2 ?_ ?_⟩
  · rw [varDefsMap]
    show (collectFromImports ([] : List (String × Module)) [] []
      (fun _ => none)).1.2 "w" = none
    rw [collectFromImports]
  · rw [findCommandVars_eq_spec]
    decide

/-- **C7**.  The pattern scanner agrees on every input with the
declarative specification: the distinct names of unescaped `$name` tokens
(identifier grammar, digit invalid as first byte, `\$` not a reference) in
first-occurrence order, names bound to a non-empty value in the known
scope excluded; and the spec's worked example yields
`["env", "region"]`. -/
theorem C7_pattern_scanner :
    (∀ (cmd : String) (scope : Option (List (String × String))),
      findCommandVars cmd scope = specFindVars cmd scope)
    ∧ findCommandVars "deploy $env to $env-$region" none = ["env", "region"] := by
  refine ⟨findCommandVars_eq_spec, ?_⟩
  rw [findCommandVars_eq_spec]
  decide

/-- **C8**.  The selector's filter shows exactly the candidates whose
lowercased text contains every whitespace-separated token of the trimmed,
lowercased field text as a substring (an empty filter keeps all options in
original order — the token list is then empty and the filter keeps
everything), and both the filter pass and a cursor move clamp the cursor
into `[0, max 0 (count-1)]`. -/
theorem C8_selector_filter (m : VarSelectModel) (delta : Int) :
    ((filterOptions m).filtered
      = if goTrim (goLower m.textValue) = "" then m.options
        else m.options.filter fun opt =>
          matchesAllWords (goLower opt) (goFields (goTrim (goLower m.textValue))))
    ∧ (goTrim (goLower m.textValue) = "" →
        (filterOptions m).filtered = m.options)
    ∧ (goTrim (goLower m.textValue) ≠ "" →
        (filterOptions m).filtered
          = m.options.filter fun opt =>
              matchesAllWords (goLower opt)
                (goFields (goTrim (goLower m.textValue))))
    ∧ (0 ≤ (filterOptions m).cursor
      ∧ (filterOptions m).cursor
          ≤ maxInt 0 (((filterOptions m).filtered).length - 1))
    ∧ (0 ≤ (moveCursor m delta).cursor
      ∧ (moveCursor m delta).cursor ≤ maxInt 0 (m.filtered.length - 1)) := by
  refine ⟨filterOptions_filtered m, ?_, ?_, ?_, ?_⟩
  · intro h
    rw [filterOptions_filtered m, if_pos h]
  · intro h
    rw [filterOptions_filtered m, if_neg h]
  · rw [filterOptions_cursor m]
    exact clamp_bounds _ _ _ (maxInt_zero_nonneg _)
  · exact clamp_bounds _ _ _ (maxInt_zero_nonneg _)

/-- Witness for `C8_selector_filter`: the spec's §8 filtering example and
the empty-filter case. -/
theorem C8_selector_filter_witness :
    (filterOptions ⟨"v", ["production", "dev-east", "prod-db"],
        ["production", "dev-east", "prod-db"], 5, "pro d", "", false⟩).filtered
      = ["production", "prod-db"]
    ∧ (filterOptions ⟨"v", ["production", "dev-east", "prod-db"],
        ["production", "dev-east", "prod-db"], 5, "", "", false⟩).filtered
      = ["production", "dev-east", "prod-db"] := by
  constructor
  · rw [(C8_selector_filter ⟨"v", ["production", "dev-east", "prod-db"],
      ["production", "dev-east", "prod-db"], 5, "pro d", "", false⟩ 0).2.2.1
      (by decide)]
    decide
  · exact (C8_selector_filter ⟨"v", ["production", "dev-east", "prod-db"],
      ["production", "dev-east", "prod-db"], 5, "", "", false⟩ 0).2.1 (by decide)

/-- **C9**.  Variable collection terminates on every index, cyclic imports
included: the visited set grows at every descent into a module's imports,
so the recursion depth never exceeds the number of modules — running the
traversal with that depth bound always succeeds (never exhausts the
bound) and computes the same result as the unbounded traversal. -/
theorem C9_import_traversal_terminates (index : List (String × Module))
    (imports : List String) (defs : DefMap) :
    collectDepth index (index.map Prod.fst).length imports [] defs
      = some (collectFromImports index imports [] defs).1 := by
  apply collectDepth_eq
  have hfe : ((index.map Prod.fst).filter
      fun x => !(([] : List String).contains x)) = index.map Prod.fst :=
    List.filter_eq_self.mpr (by intro a _; simp)
  rw [hfe]

/-- **C10** (counterexample).  Substituting the scope into a value command
iterates over a Go map in unspecified order; when one resolved name is a
proper prefix of another (`env` / `environment`) two enumeration orders of
the same scope produce different command strings, so the substitution is
not deterministic in the scope contents. -/
theorem C10_substitution_cex :
    substScope "$environment" [("env", "X"), ("environment", "Y")]
      ≠ substScope "$environment" [("environment", "Y"), ("env", "X")] := by
  have hA : substScope "$environment" [("env", "X"), ("environment", "Y")]
      = "Xironment" := by
    simp [substScope, replaceAll, startsWith]
    decide
  have hB : substScope "$environment" [("environment", "Y"), ("env", "X")]
      = "Y" := by
    simp [substScope, replaceAll, startsWith]
    decide
  rw [hA, hB]
  decide

/-- **C10** (amended).  The substitution is deterministic in the scope
contents — any two enumeration orders of the scope produce the same
string — provided the entries do not interact: names are non-empty
identifier strings none of which is a prefix of another, and values are
non-empty and contain neither `$` nor identifier bytes (so a substituted
value can neither start a new `$name` reference nor extend an adjacent
name).  The `$env`/`$environment` prefix case violates this and is a real
nondeterminism of the code. -/
theorem C10_substitution_comm (cmd : String) (l l' : List (String × String))
    (hperm : l.Perm l')
    (hok : ∀ e ∈ l, OkSubstName e.1 ∧ OkSubstVal e.2)
    (hpw : l.Pairwise fun a b =>
      startsWith a.1.data b.1.data = false
        ∧ startsWith b.1.data a.1.data = false) :
    substScope cmd l = substScope cmd l' := by
  unfold substScope
  refine congrArg List.asString ?_
  refine hperm.foldl_eq' ?_ cmd.data
  intro x hx y hy z
  by_cases hxy : x = y
  · rw [hxy]
  · have hrel := List.Pairwise.forall
      (fun a b hab => ⟨hab.2, hab.1⟩) hpw hx hy hxy
    obtain ⟨hokx1, hokx2⟩ := hok x hx
    obtain ⟨hoky1, hoky2⟩ := hok y hy
    exact replaceAll_comm x.1.data x.2.data y.1.data y.2.data
      hokx1.1 hokx1.2 hoky1.1 hoky1.2 hokx2.1 hokx2.2 hoky2.1 hoky2.2
      hrel.1 hrel.2 z

/-- Witness for `C10_substitution_comm`: two orders of a non-interacting
scope agree. -/
theorem C10_substitution_comm_witness :
    substScope "deploy $env to $region" [("env", "!"), ("region", "?")]
      = substScope "deploy $env to $region" [("region", "?"), ("env", "!")] := by
  refine C10_substitution_comm "deploy $env to $region"
    [("env", "!"), ("region", "?")] [("region", "?"), ("env", "!")]
    (List.Perm.swap _ _ _) ?_ ?_
  · intro e he
    fin_cases he <;> constructor <;> constructor <;> decide
  · constructor
    · intro b hb
      fin_cases hb
      exact ⟨by decide, by decide⟩
    · constructor
      · intro b hb
        fin_cases hb
      · constructor

end Cheatmd
